import Mathlib

/-
Verification of the notify_kairi25 pipeline (read_tickers, fetch_prices,
compute_sma25_signals, format_alerts, main) against its design notes.

Modelling conventions:
- prices are exact rationals (ℚ); a missing close (NaN in the dataframe) is `none`;
- calendar dates are natural numbers (they only need a linear order);
- pandas `rolling(25, min_periods=25).mean()` over a column with possible NaN
  yields a value exactly when the 25-row window exists and holds no NaN;
- pandas comparisons against NaN are false, so `signal` is a plain Bool;
- a raised exception is `Except.error ()`;
- `sort_values` tie order for equal keys is implementation-defined in the
  source (quicksort for a single column); a stable insertion sort is used as
  the deterministic representative, and no theorem below depends on tie order
  except under an explicit distinct-dates hypothesis.
-/

namespace NotifyKairi25

/-- One row of the fetched batch before the ticker tag is attached: a date and
an optional closing price (missing values are `none`). -/
structure RawRow where
  date : Nat
  close : Option ℚ
deriving DecidableEq

/-- Shape of the fetched batch: either a single-level close series (single
instrument, no per-ticker key) or a frame keyed by ticker. -/
inductive Batch where
  | single : List RawRow → Batch
  | keyed : List (String × List RawRow) → Batch

/-- A normalized price row, the output of `fetch_prices`. -/
structure PriceRow where
  ticker : String
  date : Nat
  close : Option ℚ
deriving DecidableEq

/-- One output row of `compute_sma25_signals`. -/
structure DevRow where
  ticker : String
  date : Nat
  close : Option ℚ
  sma25 : Option ℚ
  kairi : Option ℚ
  signal : Bool
deriving DecidableEq

/-- Python `str.strip`: drop whitespace from both ends, modelled on the
character list (the core `String.trim` does not reduce inside the kernel). -/
def pyStrip (s : String) : String :=
  ⟨((s.data.dropWhile Char.isWhitespace).reverse.dropWhile Char.isWhitespace).reverse⟩

/-- Python `str.startswith("#")` on the character list. -/
def startsWithHash (s : String) : Bool :=
  match s.data with
  | [] => false
  | c :: _ => c = '#'

/-- `read_tickers`: strip each line, drop blank lines and lines whose stripped
form starts with `#`. -/
def read_tickers (lines : List String) : List String :=
  lines.filterMap (fun line =>
    let s := pyStrip line
    if s = "" then none else if startsWithHash s then none else some s)

/-- Column lookup `data[t]` on a keyed frame: first binding for `t`, if any. -/
def lookupTicker (t : String) : List (String × List RawRow) → Option (List RawRow)
  | [] => none
  | p :: m => if p.1 = t then some p.2 else lookupTicker t m

/-- Attach the ticker column: `df['ticker'] = t`. -/
def tagRows (t : String) (rs : List RawRow) : List PriceRow :=
  rs.map (fun r => { ticker := t, date := r.date, close := r.close })

/-- The per-ticker extraction step of `fetch_prices`: `data[t]` succeeds on a
keyed frame holding `t`; otherwise the fallback uses the whole frame, which
works only in the single-level shape — selecting the close column of a keyed
frame raises, hence `Except.error`. -/
def extractTicker (data : Batch) (t : String) : Except Unit (List PriceRow) :=
  match data with
  | .keyed m =>
    match lookupTicker t m with
    | some rs => .ok (tagRows t rs)
    | none => .error ()
  | .single rs => .ok (tagRows t rs)

/-- Concatenate the per-ticker frames in request order, propagating errors. -/
def fetchFrames (data : Batch) : List String → Except Unit (List PriceRow)
  | [] => .ok []
  | t :: ts =>
    match extractTicker data t, fetchFrames data ts with
    | .ok df, .ok rest => .ok (df ++ rest)
    | .error e, _ => .error e
    | _, .error e => .error e

/-- `fetch_prices`: on an empty ticker list the concatenation of zero frames
raises; otherwise the per-ticker frames are concatenated. -/
def fetch_prices (tickers : List String) (data : Batch) : Except Unit (List PriceRow) :=
  match tickers with
  | [] => .error ()
  | _ :: _ => fetchFrames data tickers

/-- Insertion step of the deterministic sort. -/
def insertBy (le : α → α → Bool) (a : α) : List α → List α
  | [] => [a]
  | x :: xs => if le a x then a :: x :: xs else x :: insertBy le a xs

/-- Deterministic (stable) insertion sort used to model `sort_values`. -/
def sortBy (le : α → α → Bool) : List α → List α
  | [] => []
  | x :: xs => insertBy le x (sortBy le xs)

/-- The 25-row window of positions `i-24 .. i` (shorter when `i < 24`). -/
def windowAt (cs : List (Option ℚ)) (i : Nat) : List (Option ℚ) :=
  (cs.take (i + 1)).drop (i + 1 - 25)

/-- `rolling(25, min_periods=25).mean()` at position `i`: defined exactly when
25 rows exist up to `i` and none of the 25 closes in the window is missing. -/
def sma25At (cs : List (Option ℚ)) (i : Nat) : Option ℚ :=
  if i + 1 < 25 then none
  else if (windowAt cs i).all Option.isSome then
    some (((windowAt cs i).filterMap id).sum / 25)
  else none

/-- `(close / sma25 - 1.0) * 100.0`, missing when either operand is missing. -/
def kairiOf : Option ℚ → Option ℚ → Option ℚ
  | some c, some s => some ((c / s - 1.0) * 100.0)
  | _, _ => none

/-- `close < sma25 * 0.8`; comparisons against a missing value are false. -/
def signalOf : Option ℚ → Option ℚ → Bool
  | some c, some s => decide (c < s * 0.8)
  | _, _ => false

/-- Date order on price rows, for `sort_values('Date')`. -/
def dateLe (a b : PriceRow) : Bool := decide (a.date ≤ b.date)

/-- Build the output rows of one sorted group, position by position;
`cs` is the whole group's close column. -/
def devRowsAux (cs : List (Option ℚ)) : Nat → List PriceRow → List DevRow
  | _, [] => []
  | i, r :: rs =>
    { ticker := r.ticker, date := r.date, close := r.close,
      sma25 := sma25At cs i, kairi := kairiOf r.close (sma25At cs i),
      signal := signalOf r.close (sma25At cs i) } :: devRowsAux cs (i + 1) rs

/-- Process one ticker group: sort by date, then compute sma25, kairi and
signal at every position. -/
def devRowsOfGroup (g : List PriceRow) : List DevRow :=
  devRowsAux ((sortBy dateLe g).map PriceRow.close) 0 (sortBy dateLe g)

/-- Lexicographic order on strings as a Bool, for `groupby` key order. -/
def strLe (a b : String) : Bool := decide (a ≤ b)

/-- `groupby('ticker')` iterates the distinct tickers in ascending order. -/
def sortedTickers (rows : List PriceRow) : List String :=
  sortBy strLe (rows.map PriceRow.ticker).dedup

/-- `compute_sma25_signals`: group by ticker, process each group; the final
concatenation of zero group frames (empty input) raises. -/
def compute_sma25_signals (rows : List PriceRow) : Except Unit (List DevRow) :=
  if rows.isEmpty then .error ()
  else .ok ((sortedTickers rows).flatMap (fun t =>
    devRowsOfGroup (rows.filter (fun r => decide (r.ticker = t)))))

/-- Order on result rows for `sort_values(['ticker', 'Date'])`. -/
def devLe (a b : DevRow) : Bool :=
  decide (a.ticker < b.ticker) || (decide (a.ticker = b.ticker) && decide (a.date ≤ b.date))

/-- `groupby('ticker').tail(1)`: keep, for each ticker, its last row of the
list, preserving list order. -/
def lastPerTicker : List DevRow → List DevRow
  | [] => []
  | r :: rs =>
    if rs.any (fun x => decide (x.ticker = r.ticker)) then lastPerTicker rs
    else r :: lastPerTicker rs

/-- The rows that produce alert lines: sort by (ticker, date), keep the last
row per ticker, keep signalling rows. -/
def alertRows (res : List DevRow) : List DevRow :=
  (lastPerTicker (sortBy devLe res)).filter DevRow.signal

/-- Fixed-point rendering with two decimals (`:.2f`); rounding of the exact
rational stands in for the binary-float rounding of the source. -/
def fmt2 (q : ℚ) : String :=
  let n : Int := round (q * 100)
  let sgn := if n < 0 then "-" else ""
  let m := n.natAbs
  sgn ++ toString (m / 100) ++ "." ++ (if m % 100 < 10 then "0" else "") ++ toString (m % 100)

/-- Render an optional value, `N/A` when missing (`pd.notnull` guard). -/
def fmtOpt : Option ℚ → String
  | some q => fmt2 q
  | none => "N/A"

/-- The close column is rendered without a null guard; a missing close prints
as `nan`. -/
def fmtClose : Option ℚ → String
  | some q => fmt2 q
  | none => "nan"

/-- One alert line of the report body. -/
def renderRow (r : DevRow) : String :=
  r.ticker ++ "  日付:" ++ toString r.date ++ "  終値:" ++ fmtClose r.close ++
    "  SMA25:" ++ fmtOpt r.sma25 ++ "  乖離:" ++
    (match r.kairi with
     | some q => fmt2 q ++ "%"
     | none => "N/A")

/-- `format_alerts`: header with the caller-supplied timestamp, then either a
no-hit line or one line per alert row. -/
def format_alerts (res : List DevRow) (today : String) : String :=
  let header := "【-20% 乖離アラート】" ++ today
  let hit := alertRows res
  String.intercalate "\n" (header :: (if hit.isEmpty then ["該当なし"] else hit.map renderRow))

/-- Outcome of one invocation of `main`. -/
inductive MainOutcome where
  | configExit : Nat → MainOutcome
  | fetchFail : MainOutcome
  | computeFail : MainOutcome
  | report : String → MainOutcome
deriving DecidableEq

/-- `main` up to the delivery channels: read the ticker list, exit with status
2 when it is empty, else fetch, compute and format. -/
def mainRun (tickerLines : List String) (data : Batch) (today : String) : MainOutcome :=
  let tickers := read_tickers tickerLines
  if tickers.isEmpty then .configExit 2
  else
    match fetch_prices tickers data with
    | .error _ => .fetchFail
    | .ok raw =>
      match compute_sma25_signals raw with
      | .error _ => .computeFail
      | .ok res => .report (format_alerts res today)

/-- The row of maximal date, `none` on the empty list (later duplicates of the
maximal date are ignored; callers assume distinct dates). -/
def argmaxDate : List DevRow → Option DevRow
  | [] => none
  | r :: rs =>
    match argmaxDate rs with
    | none => some r
    | some m => if m.date < r.date then some r else some m

/-- The chronologically last result row of ticker `t`. -/
def chronoLast (t : String) (res : List DevRow) : Option DevRow :=
  argmaxDate (res.filter (fun r => decide (r.ticker = t)))

/-- The last row of the list carrying ticker `t`, if any. -/
def findLastTicker (t : String) : List DevRow → Option DevRow
  | [] => none
  | r :: rs =>
    match findLastTicker t rs with
    | some m => some m
    | none => if r.ticker = t then some r else none

theorem insertBy_perm (le : α → α → Bool) (a : α) (l : List α) :
    (insertBy le a l).Perm (a :: l) := by
  induction l with
  | nil => exact List.Perm.refl _
  | cons x xs ih =>
    rw [insertBy]
    split
    · exact List.Perm.refl _
    · exact (ih.cons x).trans (List.Perm.swap a x xs)

theorem sortBy_perm (le : α → α → Bool) (l : List α) : (sortBy le l).Perm l := by
  induction l with
  | nil => exact List.Perm.refl _
  | cons x xs ih => exact (insertBy_perm le x (sortBy le xs)).trans (ih.cons x)

theorem pairwise_insertBy (le : α → α → Bool)
    (htot : ∀ a b, le a b = false → le b a = true)
    (htrans : ∀ a b c, le a b = true → le b c = true → le a c = true)
    (a : α) (l : List α) (h : l.Pairwise (fun x y => le x y = true)) :
    (insertBy le a l).Pairwise (fun x y => le x y = true) := by
  induction l with
  | nil => simp [insertBy]
  | cons x xs ih =>
    rw [insertBy]
    rcases List.pairwise_cons.mp h with ⟨hx, hxs⟩
    by_cases hax : le a x = true
    · rw [if_pos hax]
      refine List.pairwise_cons.mpr ⟨?_, h⟩
      intro y hy
      rcases List.mem_cons.mp hy with rfl | hy
      · exact hax
      · exact htrans a x y hax (hx y hy)
    · rw [if_neg hax]
      refine List.pairwise_cons.mpr ⟨?_, ih hxs⟩
      intro y hy
      rcases List.mem_cons.mp ((insertBy_perm le a xs).mem_iff.mp hy) with heq | hy
      · rw [heq]; exact htot a x (Bool.eq_false_iff.mpr hax)
      · exact hx y hy

theorem pairwise_sortBy (le : α → α → Bool)
    (htot : ∀ a b, le a b = false → le b a = true)
    (htrans : ∀ a b c, le a b = true → le b c = true → le a c = true)
    (l : List α) : (sortBy le l).Pairwise (fun x y => le x y = true) := by
  induction l with
  | nil => simp [sortBy]
  | cons x xs ih => exact pairwise_insertBy le htot htrans x (sortBy le xs) ih

theorem dateLe_total : ∀ a b : PriceRow, dateLe a b = false → dateLe b a = true := by
  intro a b h
  simp only [dateLe, decide_eq_false_iff_not, Nat.not_le] at h
  simp only [dateLe, decide_eq_true_eq]
  omega

theorem dateLe_trans : ∀ a b c : PriceRow,
    dateLe a b = true → dateLe b c = true → dateLe a c = true := by
  intro a b c hab hbc
  simp only [dateLe, decide_eq_true_eq] at hab hbc ⊢
  omega

theorem strLe_total : ∀ a b : String, strLe a b = false → strLe b a = true := by
  intro a b h
  simp only [strLe, decide_eq_false_iff_not, not_le] at h
  simp only [strLe, decide_eq_true_eq]
  exact le_of_lt h

theorem strLe_trans : ∀ a b c : String,
    strLe a b = true → strLe b c = true → strLe a c = true := by
  intro a b c hab hbc
  simp only [strLe, decide_eq_true_eq] at hab hbc ⊢
  exact le_trans hab hbc

theorem devLe_total : ∀ a b : DevRow, devLe a b = false → devLe b a = true := by
  intro a b h
  simp only [devLe, Bool.or_eq_false_iff, Bool.and_eq_false_iff, decide_eq_false_iff_not,
    Bool.or_eq_true, Bool.and_eq_true, decide_eq_true_eq] at h ⊢
  rcases h with ⟨h1, h2⟩
  rcases lt_trichotomy a.ticker b.ticker with hlt | heq | hgt
  · exact absurd hlt h1
  · rcases h2 with h2 | h2
    · exact absurd heq h2
    · right
      refine ⟨heq.symm, ?_⟩
      simp only [decide_eq_false_iff_not, Nat.not_le] at h2
      omega
  · exact Or.inl hgt

theorem devLe_trans : ∀ a b c : DevRow,
    devLe a b = true → devLe b c = true → devLe a c = true := by
  intro a b c hab hbc
  simp only [devLe, Bool.or_eq_true, Bool.and_eq_true, decide_eq_true_eq] at hab hbc ⊢
  rcases hab with hab | ⟨hab1, hab2⟩
  · rcases hbc with hbc | ⟨hbc1, hbc2⟩
    · exact Or.inl (lt_trans hab hbc)
    · exact Or.inl (hbc1 ▸ hab)
  · rcases hbc with hbc | ⟨hbc1, hbc2⟩
    · exact Or.inl (hab1 ▸ hbc)
    · exact Or.inr ⟨hab1.trans hbc1, Nat.le_trans hab2 hbc2⟩

theorem devRowsAux_getElem? (cs : List (Option ℚ)) (l : List PriceRow) :
    ∀ (i j : Nat), (devRowsAux cs i l)[j]? = (l[j]?).map (fun p =>
      { ticker := p.ticker, date := p.date, close := p.close,
        sma25 := sma25At cs (i + j), kairi := kairiOf p.close (sma25At cs (i + j)),
        signal := signalOf p.close (sma25At cs (i + j)) }) := by
  induction l with
  | nil => intro i j; simp [devRowsAux]
  | cons p l ih =>
    intro i j
    cases j with
    | zero => simp [devRowsAux]
    | succ j =>
      have harith : i + 1 + j = i + (j + 1) := by omega
      simpa [devRowsAux, harith] using ih (i + 1) j

theorem length_devRowsAux (cs : List (Option ℚ)) (l : List PriceRow) :
    ∀ i : Nat, (devRowsAux cs i l).length = l.length := by
  induction l with
  | nil => intro i; simp [devRowsAux]
  | cons p l ih => intro i; simp [devRowsAux, ih (i + 1)]

theorem map_date_devRowsAux (cs : List (Option ℚ)) (l : List PriceRow) :
    ∀ i : Nat, (devRowsAux cs i l).map DevRow.date = l.map PriceRow.date := by
  induction l with
  | nil => intro i; simp [devRowsAux]
  | cons p l ih => intro i; simp [devRowsAux, ih (i + 1)]

theorem map_ticker_devRowsAux (cs : List (Option ℚ)) (l : List PriceRow) :
    ∀ i : Nat, (devRowsAux cs i l).map DevRow.ticker = l.map PriceRow.ticker := by
  induction l with
  | nil => intro i; simp [devRowsAux]
  | cons p l ih => intro i; simp [devRowsAux, ih (i + 1)]

theorem self_mem_windowAt (cs : List (Option ℚ)) (i : Nat) (co : Option ℚ)
    (h : cs[i]? = some co) : co ∈ windowAt cs i := by
  unfold windowAt
  have h1 : (cs.take (i + 1))[i]? = some co := by
    rw [List.getElem?_take, if_pos (Nat.lt_succ_self i)]
    exact h
  have h2 : ((cs.take (i + 1)).drop (i + 1 - 25))[i - (i + 1 - 25)]? = some co := by
    rw [List.getElem?_drop]
    have harith : (i + 1 - 25) + (i - (i + 1 - 25)) = i := by omega
    rw [harith]
    exact h1
  exact List.getElem?_mem h2

theorem sma25At_eq_some (cs : List (Option ℚ)) (i : Nat) (v : ℚ)
    (h : sma25At cs i = some v) :
    ¬ i + 1 < 25 ∧ (windowAt cs i).all Option.isSome = true ∧
      v = ((windowAt cs i).filterMap id).sum / 25 := by
  unfold sma25At at h
  split at h
  · exact absurd h (by simp)
  · split at h
    · refine ⟨by assumption, by assumption, ?_⟩
      exact (Option.some_inj.mp h).symm
    · exact absurd h (by simp)

theorem close_isSome_of_sma (cs : List (Option ℚ)) (i : Nat) (co : Option ℚ) (v : ℚ)
    (hget : cs[i]? = some co) (h : sma25At cs i = some v) : ∃ c, co = some c := by
  have hall := (sma25At_eq_some cs i v h).2.1
  have hmem := self_mem_windowAt cs i co hget
  have hsome := List.all_eq_true.mp hall co hmem
  cases co with
  | none => simp at hsome
  | some c => exact ⟨c, rfl⟩

theorem mem_devRowsOfGroup (g : List PriceRow) (r : DevRow) (hr : r ∈ devRowsOfGroup g) :
    ∃ i p, (sortBy dateLe g)[i]? = some p ∧
      ((sortBy dateLe g).map PriceRow.close)[i]? = some p.close ∧
      r = { ticker := p.ticker, date := p.date, close := p.close,
            sma25 := sma25At ((sortBy dateLe g).map PriceRow.close) i,
            kairi := kairiOf p.close (sma25At ((sortBy dateLe g).map PriceRow.close) i),
            signal := signalOf p.close (sma25At ((sortBy dateLe g).map PriceRow.close) i) } := by
  unfold devRowsOfGroup at hr
  rcases List.mem_iff_getElem?.mp hr with ⟨i, hi⟩
  rw [devRowsAux_getElem?] at hi
  cases hp : (sortBy dateLe g)[i]? with
  | none => rw [hp] at hi; simp at hi
  | some p =>
    rw [hp] at hi
    simp only [Option.map_some', Option.some_inj, Nat.zero_add] at hi
    refine ⟨i, p, hp, ?_, hi.symm⟩
    rw [List.getElem?_map, hp]
    rfl

theorem signalOf_eq_true_iff (co so : Option ℚ) :
    signalOf co so = true ↔ ∃ s c, so = some s ∧ co = some c ∧ c < s * 0.8 := by
  cases co <;> cases so <;> simp [signalOf]

theorem sma25At_eq_none_of_none_mem (cs : List (Option ℚ)) (i : Nat)
    (h25 : 24 ≤ i) (hmiss : none ∈ windowAt cs i) : sma25At cs i = none := by
  have hfalse : ¬ ((windowAt cs i).all Option.isSome = true) := by
    intro hall
    have := List.all_eq_true.mp hall none hmiss
    simp at this
  unfold sma25At
  rw [if_neg (by omega), if_neg hfalse]

theorem signal_characterisation_of_group (g : List PriceRow) (r : DevRow)
    (hr : r ∈ devRowsOfGroup g) :
    (r.signal = true ↔ ∃ s c, r.sma25 = some s ∧ r.close = some c ∧ c < s * 0.8) ∧
    (r.sma25 = none → r.signal = false) ∧
    (r.signal = true → r.sma25 ≠ none) := by
  rcases mem_devRowsOfGroup g r hr with ⟨i, p, hp, hc, rfl⟩
  dsimp only
  refine ⟨signalOf_eq_true_iff _ _, ?_, ?_⟩
  · intro h
    rw [h]
    cases p.close <;> rfl
  · intro h hnone
    rcases (signalOf_eq_true_iff _ _).mp h with ⟨s, c, hs, _, _⟩
    rw [hnone] at hs
    cases hs

/-- C1: for every DeviationRecord produced by the pipeline's calculator,
`signal` is true iff the trailing average is defined and
`close < trailing_average * 0.8`; whenever the trailing average is undefined
the signal is false, so no record with a true signal has an undefined average. -/
theorem c1_signal_characterisation (rows : List PriceRow) (res : List DevRow) (r : DevRow)
    (hres : compute_sma25_signals rows = .ok res) (hr : r ∈ res) :
    (r.signal = true ↔ ∃ s c, r.sma25 = some s ∧ r.close = some c ∧ c < s * 0.8) ∧
    (r.sma25 = none → r.signal = false) ∧
    (r.signal = true → r.sma25 ≠ none) := by
  have hg : ∃ g, r ∈ devRowsOfGroup g := by
    by_cases hemp : rows.isEmpty
    · unfold compute_sma25_signals at hres
      rw [if_pos hemp] at hres
      cases hres
    · unfold compute_sma25_signals at hres
      rw [if_neg hemp] at hres
      have hres2 := (Except.ok.inj hres).symm
      rw [hres2] at hr
      rcases List.mem_flatMap.mp hr with ⟨t, _, hrg⟩
      exact ⟨_, hrg⟩
  rcases hg with ⟨g, hrg⟩
  exact signal_characterisation_of_group g r hrg

def gC1 : List PriceRow := [{ ticker := "A", date := 0, close := some 1 }]

def rC1 : DevRow :=
  { ticker := "A", date := 0, close := some 1, sma25 := none, kairi := none, signal := false }

/-- Witness for C1 at a concrete one-row pipeline run. -/
theorem c1_signal_characterisation_witness :
    compute_sma25_signals gC1 = .ok [rC1] ∧ rC1 ∈ [rC1] ∧
    ((rC1.signal = true ↔ ∃ s c, rC1.sma25 = some s ∧ rC1.close = some c ∧ c < s * 0.8) ∧
     (rC1.sma25 = none → rC1.signal = false) ∧
     (rC1.signal = true → rC1.sma25 ≠ none)) :=
  ⟨rfl, by decide, c1_signal_characterisation gC1 [rC1] rC1 rfl (by decide)⟩

/-- C2 (amended): the trailing average at position `i` is undefined when fewer
than 25 rows exist up to `i`; when 25 rows exist the window has exactly 25
entries, and the average equals the arithmetic mean of those 25 closes exactly
when all of them are present, being undefined when any close in the window is
missing. It is never computed from fewer than 25 closes. -/
theorem c2_trailing_average_window (cs : List (Option ℚ)) (i : Nat) :
    (i + 1 < 25 → sma25At cs i = none) ∧
    (24 ≤ i → i < cs.length → (windowAt cs i).length = 25) ∧
    (24 ≤ i → (windowAt cs i).all Option.isSome = true →
      sma25At cs i = some (((windowAt cs i).filterMap id).sum / 25)) ∧
    (24 ≤ i → none ∈ windowAt cs i → sma25At cs i = none) := by
  refine ⟨?_, ?_, ?_, ?_⟩
  · intro h
    unfold sma25At
    rw [if_pos h]
  · intro h1 h2
    unfold windowAt
    rw [List.length_drop, List.length_take]
    omega
  · intro h1 h2
    unfold sma25At
    rw [if_neg (by omega), if_pos h2]
  · intro h1 h2
    exact sma25At_eq_none_of_none_mem cs i h1 h2

def csC2w : List (Option ℚ) := List.replicate 25 (some 1)

/-- Witness for C2 (amended) at a complete 25-close window. -/
theorem c2_trailing_average_window_witness :
    24 ≤ 24 ∧ (windowAt csC2w 24).all Option.isSome = true ∧
    sma25At csC2w 24 = some (((windowAt csC2w 24).filterMap id).sum / 25) :=
  ⟨by decide, by decide,
    (c2_trailing_average_window csC2w 24).2.2.1 (by decide) (by decide)⟩

def gC2 : List PriceRow :=
  (List.range 26).map (fun i =>
    { ticker := "A", date := i, close := if i = 24 then none else some 1 })

/-- C2 counterexample: an instrument with 26 rows, of which only the one at
position 24 has a missing close. Up to the last date, 26 rows — 25 of them
with present closes — exist, yet the trailing average of the record at
position 25 is undefined, because its 25-row window holds the missing close;
this refutes the claim that the average is defined whenever at least 25 data
points exist up to the date. -/
theorem c2_counterexample :
    gC2.length = 26 ∧
    (gC2.filter (fun p => p.close.isSome)).length = 25 ∧
    ((devRowsOfGroup gC2).map DevRow.sma25)[25]? = some none := by
  decide

/-- C8: every record with a defined trailing average also carries the
deviation percentage `(close / trailing_average - 1) * 100`, with a defined
close. -/
theorem c8_deviation_formula (g : List PriceRow) (r : DevRow) (hr : r ∈ devRowsOfGroup g)
    (s : ℚ) (hs : r.sma25 = some s) :
    ∃ c, r.close = some c ∧ r.kairi = some ((c / s - 1) * 100) := by
  rcases mem_devRowsOfGroup g r hr with ⟨i, p, hp, hc, rfl⟩
  dsimp only at hs ⊢
  rcases close_isSome_of_sma _ i p.close s hc hs with ⟨c, hcc⟩
  refine ⟨c, hcc, ?_⟩
  rw [hcc, hs]
  unfold kairiOf
  norm_num

def gC8 : List PriceRow :=
  (List.range 25).map (fun i => { ticker := "A", date := i, close := some 1 })

def rC8 : DevRow :=
  { ticker := "A", date := 24, close := some 1, sma25 := some 1, kairi := some 0, signal := false }

/-- Witness for C8 at a constant 25-close series whose last record has a
defined average. -/
theorem c8_deviation_formula_witness :
    rC8 ∈ devRowsOfGroup gC8 ∧ rC8.sma25 = some 1 ∧
    (∃ c, rC8.close = some c ∧ rC8.kairi = some ((c / 1 - 1) * 100)) := by
  have hmem : rC8 ∈ devRowsOfGroup gC8 := by
    norm_num [devRowsOfGroup, devRowsAux, sortBy, insertBy, dateLe, sma25At, windowAt,
      kairiOf, signalOf, gC8, rC8, List.range, List.range.loop, List.filterMap_cons,
      List.sum_cons, List.sum_nil]
  exact ⟨hmem, rfl, c8_deviation_formula gC8 rC8 hmem 1 rfl⟩

/-- C10: a calculator output row whose 25-row window contains a missing close
has an undefined trailing average, an undefined deviation percentage, and a
false signal. -/
theorem c10_missing_close_window (g : List PriceRow) (i : Nat) (r : DevRow)
    (hr : (devRowsOfGroup g)[i]? = some r)
    (h25 : 24 ≤ i)
    (hmiss : none ∈ windowAt ((sortBy dateLe g).map PriceRow.close) i) :
    r.sma25 = none ∧ r.kairi = none ∧ r.signal = false := by
  unfold devRowsOfGroup at hr
  rw [devRowsAux_getElem?] at hr
  cases hp : (sortBy dateLe g)[i]? with
  | none => rw [hp] at hr; simp at hr
  | some p =>
    rw [hp] at hr
    simp only [Option.map_some', Option.some_inj, Nat.zero_add] at hr
    have hsma : sma25At ((sortBy dateLe g).map PriceRow.close) i = none :=
      sma25At_eq_none_of_none_mem _ i h25 hmiss
    rw [← hr]
    dsimp only
    rw [hsma]
    cases p.close <;> exact ⟨rfl, rfl, rfl⟩

def gC10 : List PriceRow :=
  { ticker := "A", date := 0, close := none } ::
    (List.range 24).map (fun i => { ticker := "A", date := i + 1, close := some 1 })

def rC10 : DevRow :=
  { ticker := "A", date := 24, close := some 1, sma25 := none, kairi := none, signal := false }

/-- Witness for C10: a series whose earliest close is missing; the record at
position 24 (whose window therefore contains a missing close) is computed with
no average, no deviation and a false signal. -/
theorem c10_missing_close_window_witness :
    (devRowsOfGroup gC10)[24]? = some rC10 ∧ 24 ≤ 24 ∧
    none ∈ windowAt ((sortBy dateLe gC10).map PriceRow.close) 24 ∧
    (rC10.sma25 = none ∧ rC10.kairi = none ∧ rC10.signal = false) :=
  ⟨by decide, by decide, by decide,
    c10_missing_close_window gC10 24 rC10 (by decide) (by decide) (by decide)⟩

theorem lastPerTicker_sublist (l : List DevRow) : (lastPerTicker l).Sublist l := by
  induction l with
  | nil => simp [lastPerTicker]
  | cons r rs ih =>
    rw [lastPerTicker]
    split
    · exact ih.cons r
    · exact ih.cons₂ r

theorem any_ticker_eq_true_iff (rs : List DevRow) (t : String) :
    rs.any (fun x => decide (x.ticker = t)) = true ↔ ∃ x ∈ rs, x.ticker = t := by
  simp [List.any_eq_true]

theorem mem_map_ticker_lastPerTicker (l : List DevRow) (t : String) :
    t ∈ (lastPerTicker l).map DevRow.ticker ↔ t ∈ l.map DevRow.ticker := by
  induction l with
  | nil => simp [lastPerTicker]
  | cons r rs ih =>
    rw [lastPerTicker]
    split
    · rename_i hany
      rcases (any_ticker_eq_true_iff rs r.ticker).mp hany with ⟨y, hy, hyt⟩
      rw [ih]
      simp only [List.map_cons, List.mem_cons]
      constructor
      · exact Or.inr
      · rintro (heq | h)
        · exact heq ▸ hyt ▸ List.mem_map_of_mem DevRow.ticker hy
        · exact h
    · simp only [List.map_cons, List.mem_cons, ih]

theorem nodup_ticker_lastPerTicker (l : List DevRow) :
    ((lastPerTicker l).map DevRow.ticker).Nodup := by
  induction l with
  | nil => simp [lastPerTicker]
  | cons r rs ih =>
    rw [lastPerTicker]
    split
    · exact ih
    · rename_i hany
      simp only [List.map_cons, List.nodup_cons]
      refine ⟨?_, ih⟩
      intro hmem
      rcases List.mem_map.mp ((mem_map_ticker_lastPerTicker rs r.ticker).mp hmem) with
        ⟨y, hy, hyt⟩
      exact absurd ((any_ticker_eq_true_iff rs r.ticker).mpr ⟨y, hy, hyt⟩)
        (Bool.eq_false_iff.mp (Bool.not_eq_true _ ▸ (by simpa using hany)))

theorem findLastTicker_eq_none (t : String) (l : List DevRow) :
    findLastTicker t l = none ↔ ∀ y ∈ l, y.ticker ≠ t := by
  induction l with
  | nil => simp [findLastTicker]
  | cons r rs ih =>
    rw [findLastTicker]
    cases h : findLastTicker t rs with
    | some m =>
      constructor
      · intro h2
        cases h2
      · intro hall
        have hnone : findLastTicker t rs = none :=
          ih.mpr (fun y hy => hall y (List.mem_cons_of_mem r hy))
        rw [hnone] at h
        cases h
    | none =>
      have hall := ih.mp h
      constructor
      · intro hnone y hy
        rcases List.mem_cons.mp hy with heq | hy2
        · intro ht
          rw [heq] at ht
          rw [if_pos ht] at hnone
          cases hnone
        · exact hall y hy2
      · intro hy
        rw [if_neg (hy r (List.mem_cons_self r rs))]

theorem findLastTicker_eq_some_mem (t : String) (l : List DevRow) (r : DevRow)
    (h : findLastTicker t l = some r) : r ∈ l ∧ r.ticker = t := by
  induction l with
  | nil => cases h
  | cons x xs ih =>
    rw [findLastTicker] at h
    cases hf : findLastTicker t xs with
    | some m =>
      rw [hf] at h
      have hmr : m = r := Option.some_inj.mp h
      rcases ih (hf.trans (congrArg some hmr)) with ⟨h1, h2⟩
      exact ⟨List.mem_cons_of_mem x h1, h2⟩
    | none =>
      rw [hf] at h
      by_cases hxt : x.ticker = t
      · rw [if_pos hxt] at h
        have hxr : x = r := Option.some_inj.mp h
        exact ⟨hxr ▸ List.mem_cons_self x xs, hxr ▸ hxt⟩
      · rw [if_neg hxt] at h
        cases h

theorem mem_lastPerTicker_iff (l : List DevRow) (r : DevRow) :
    r ∈ lastPerTicker l ↔ findLastTicker r.ticker l = some r := by
  induction l with
  | nil => simp [lastPerTicker, findLastTicker]
  | cons x xs ih =>
    rw [lastPerTicker, findLastTicker]
    by_cases hany : xs.any (fun y => decide (y.ticker = x.ticker)) = true
    · rw [if_pos hany]
      rcases (any_ticker_eq_true_iff xs x.ticker).mp hany with ⟨y, hy, hyt⟩
      cases hf : findLastTicker r.ticker xs with
      | some m => rw [ih, hf]
      | none =>
        rw [ih, hf]
        constructor
        · intro habs
          cases habs
        · intro hif
          by_cases hxt : x.ticker = r.ticker
          · rw [if_pos hxt] at hif
            have hxr : x = r := Option.some_inj.mp hif
            have hynot : y.ticker ≠ r.ticker :=
              (findLastTicker_eq_none r.ticker xs).mp hf y hy
            exact absurd (hyt.trans (hxr ▸ hxt)) hynot
          · rw [if_neg hxt] at hif
            cases hif
    · rw [if_neg hany]
      have hnone : ∀ y ∈ xs, y.ticker ≠ x.ticker := by
        intro y hy hyt
        exact hany ((any_ticker_eq_true_iff xs x.ticker).mpr ⟨y, hy, hyt⟩)
      constructor
      · intro hmem
        rcases List.mem_cons.mp hmem with heq | hmem2
        · subst heq
          have hfn : findLastTicker r.ticker xs = none :=
            (findLastTicker_eq_none r.ticker xs).mpr hnone
          rw [hfn, if_pos rfl]
        · rw [ih.mp hmem2]
      · intro hf
        cases hfx : findLastTicker r.ticker xs with
        | some m =>
          rw [hfx] at hf
          have hmr : m = r := Option.some_inj.mp hf
          exact List.mem_cons_of_mem x (ih.mpr (hfx.trans (congrArg some hmr)))
        | none =>
          rw [hfx] at hf
          by_cases hxt : x.ticker = r.ticker
          · rw [if_pos hxt] at hf
            exact List.mem_cons.mpr (Or.inl (Option.some_inj.mp hf).symm)
          · rw [if_neg hxt] at hf
            cases hf

theorem date_le_of_devLe_same (a b : DevRow) (h : devLe a b = true)
    (ht : a.ticker = b.ticker) : a.date ≤ b.date := by
  simp only [devLe, Bool.or_eq_true, Bool.and_eq_true, decide_eq_true_eq] at h
  rcases h with h | ⟨_, h2⟩
  · exact absurd (ht ▸ h) (lt_irrefl _)
  · exact h2

theorem findLastTicker_max (l : List DevRow)
    (hsort : l.Pairwise (fun x y => devLe x y = true)) (t : String) (r : DevRow)
    (h : findLastTicker t l = some r) : ∀ x ∈ l, x.ticker = t → x.date ≤ r.date := by
  induction l with
  | nil => cases h
  | cons x xs ih =>
    rcases List.pairwise_cons.mp hsort with ⟨hx, hxs⟩
    rw [findLastTicker] at h
    cases hf : findLastTicker t xs with
    | some m =>
      rw [hf] at h
      have hmr : m = r := Option.some_inj.mp h
      intro z hz hzt
      rcases List.mem_cons.mp hz with heq | hz2
      · subst heq
        rcases findLastTicker_eq_some_mem t xs m hf with ⟨hmmem, hmt⟩
        exact hmr ▸ date_le_of_devLe_same z m (hx m hmmem) (hzt.trans hmt.symm)
      · exact ih hxs (hf.trans (congrArg some hmr)) z hz2 hzt
    | none =>
      rw [hf] at h
      by_cases hxt : x.ticker = t
      · rw [if_pos hxt] at h
        have hxr : x = r := Option.some_inj.mp h
        intro z hz hzt
        rcases List.mem_cons.mp hz with heq | hz2
        · rw [heq, hxr]
        · exact absurd hzt ((findLastTicker_eq_none t xs).mp hf z hz2)
      · rw [if_neg hxt] at h
        cases h

theorem argmaxDate_eq_none (l : List DevRow) : argmaxDate l = none ↔ l = [] := by
  constructor
  · intro h
    cases l with
    | nil => rfl
    | cons r rs =>
      cases ha : argmaxDate rs with
      | none =>
        simp only [argmaxDate, ha] at h
        cases h
      | some a =>
        simp only [argmaxDate, ha] at h
        by_cases hlt : a.date < r.date
        · rw [if_pos hlt] at h
          cases h
        · rw [if_neg hlt] at h
          cases h
  · intro h
    rw [h]
    rfl

theorem argmaxDate_mem (l : List DevRow) (m : DevRow) (h : argmaxDate l = some m) :
    m ∈ l := by
  induction l generalizing m with
  | nil => cases h
  | cons r rs ih =>
    cases ha : argmaxDate rs with
    | none =>
      simp only [argmaxDate, ha, Option.some_inj] at h
      exact List.mem_cons.mpr (Or.inl h.symm)
    | some a =>
      simp only [argmaxDate, ha] at h
      by_cases hlt : a.date < r.date
      · rw [if_pos hlt] at h
        exact List.mem_cons.mpr (Or.inl (Option.some_inj.mp h).symm)
      · rw [if_neg hlt] at h
        exact List.mem_cons_of_mem r (ih m (ha.trans h))

theorem argmaxDate_le (l : List DevRow) (m : DevRow) (h : argmaxDate l = some m) :
    ∀ x ∈ l, x.date ≤ m.date := by
  induction l generalizing m with
  | nil => cases h
  | cons r rs ih =>
    intro x hx
    cases ha : argmaxDate rs with
    | none =>
      simp only [argmaxDate, ha, Option.some_inj] at h
      have hnil : rs = [] := (argmaxDate_eq_none rs).mp ha
      rcases List.mem_cons.mp hx with heq | hx2
      · rw [heq, ← h]
      · rw [hnil] at hx2
        cases hx2
    | some a =>
      simp only [argmaxDate, ha] at h
      by_cases hlt : a.date < r.date
      · rw [if_pos hlt] at h
        have hrm : r = m := Option.some_inj.mp h
        rcases List.mem_cons.mp hx with heq | hx2
        · rw [heq, ← hrm]
        · exact le_trans (ih a ha x hx2) (hrm ▸ le_of_lt hlt)
      · rw [if_neg hlt] at h
        have ham : a = m := Option.some_inj.mp h
        rcases List.mem_cons.mp hx with heq | hx2
        · rw [heq, ← ham]
          omega
        · exact ham ▸ ih a ha x hx2

theorem findLastTicker_eq_chronoLast (res : List DevRow)
    (hdist : res.Pairwise (fun a b => a.ticker = b.ticker → a.date ≠ b.date)) (t : String) :
    findLastTicker t (sortBy devLe res) = chronoLast t res := by
  have hperm := sortBy_perm devLe res
  have hsort := pairwise_sortBy devLe devLe_total devLe_trans res
  cases hf : findLastTicker t (sortBy devLe res) with
  | none =>
    have hnone := (findLastTicker_eq_none t (sortBy devLe res)).mp hf
    have hfil : res.filter (fun r => decide (r.ticker = t)) = [] := by
      rw [List.filter_eq_nil_iff]
      intro a ha
      simp only [decide_eq_true_eq]
      exact hnone a (hperm.mem_iff.mpr ha)
    unfold chronoLast
    rw [hfil]
    rfl
  | some r =>
    rcases findLastTicker_eq_some_mem t (sortBy devLe res) r hf with ⟨hrmem, hrt⟩
    have hrres : r ∈ res := hperm.mem_iff.mp hrmem
    have hmax : ∀ x ∈ res, x.ticker = t → x.date ≤ r.date := by
      intro x hx hxt
      exact findLastTicker_max (sortBy devLe res) hsort t r hf x (hperm.mem_iff.mpr hx) hxt
    have hrfilter : r ∈ res.filter (fun r => decide (r.ticker = t)) :=
      List.mem_filter.mpr ⟨hrres, by simp [hrt]⟩
    unfold chronoLast
    cases hm : argmaxDate (res.filter (fun r => decide (r.ticker = t))) with
    | none =>
      rw [argmaxDate_eq_none] at hm
      rw [hm] at hrfilter
      cases hrfilter
    | some m =>
      have hmmem := argmaxDate_mem _ m hm
      have hmres : m ∈ res := (List.mem_filter.mp hmmem).1
      have hmt : m.ticker = t := by
        have := (List.mem_filter.mp hmmem).2
        simpa using this
      have h1 : r.date ≤ m.date := argmaxDate_le _ m hm r hrfilter
      have h2 : m.date ≤ r.date := hmax m hmres hmt
      by_cases heq : m = r
      · rw [heq]
      · exfalso
        have hsymm : Symmetric (fun a b : DevRow => a.ticker = b.ticker → a.date ≠ b.date) := by
          intro a b hab hba hd
          exact hab hba.symm hd.symm
        exact (hdist.forall hsymm hmres hrres heq) (hmt.trans hrt.symm) (le_antisymm h2 h1)

theorem mem_ticker_filter_signal (l : List DevRow) (t : String) :
    t ∈ (l.filter DevRow.signal).map DevRow.ticker ↔
      ∃ r ∈ l, r.ticker = t ∧ r.signal = true := by
  constructor
  · intro h
    rcases List.mem_map.mp h with ⟨r, hr, hrt⟩
    rcases List.mem_filter.mp hr with ⟨hrl, hrs⟩
    exact ⟨r, hrl, hrt, hrs⟩
  · rintro ⟨r, hrl, hrt, hrs⟩
    exact List.mem_map.mpr ⟨r, List.mem_filter.mpr ⟨hrl, hrs⟩, hrt⟩

/-- C3: the report holds at most one line per instrument, and an instrument
has a line exactly when its chronologically last DeviationRecord (well defined
under the stated distinct-dates-per-instrument hypothesis) has a true signal;
no other record of the instrument contributes a line. -/
theorem c3_report_per_instrument (res : List DevRow)
    (hdist : res.Pairwise (fun a b => a.ticker = b.ticker → a.date ≠ b.date)) :
    ((alertRows res).map DevRow.ticker).Nodup ∧
    ∀ t : String, (t ∈ (alertRows res).map DevRow.ticker ↔
      ∃ r, chronoLast t res = some r ∧ r.signal = true) := by
  constructor
  · exact (nodup_ticker_lastPerTicker (sortBy devLe res)).sublist
      ((List.filter_sublist _).map DevRow.ticker)
  · intro t
    unfold alertRows
    rw [mem_ticker_filter_signal]
    constructor
    · rintro ⟨r, hrmem, hrt, hrs⟩
      have hf : findLastTicker r.ticker (sortBy devLe res) = some r :=
        (mem_lastPerTicker_iff _ r).mp hrmem
      rw [hrt] at hf
      rw [← findLastTicker_eq_chronoLast res hdist t]
      exact ⟨r, hf, hrs⟩
    · rintro ⟨r, hc, hrs⟩
      rw [← findLastTicker_eq_chronoLast res hdist t] at hc
      have hrt : r.ticker = t := (findLastTicker_eq_some_mem t _ r hc).2
      refine ⟨r, ?_, hrt, hrs⟩
      rw [mem_lastPerTicker_iff, hrt]
      exact hc

def resC3 : List DevRow :=
  [{ ticker := "B", date := 1, close := some 1, sma25 := some 2, kairi := some (-50),
     signal := true },
   { ticker := "A", date := 2, close := some 1, sma25 := none, kairi := none,
     signal := false },
   { ticker := "A", date := 3, close := some 1, sma25 := some 2, kairi := some (-50),
     signal := true }]

/-- Witness for C3 at a two-instrument result set with distinct dates per
instrument. -/
theorem c3_report_per_instrument_witness :
    resC3.Pairwise (fun a b => a.ticker = b.ticker → a.date ≠ b.date) ∧
    (((alertRows resC3).map DevRow.ticker).Nodup ∧
     ∀ t : String, (t ∈ (alertRows resC3).map DevRow.ticker ↔
       ∃ r, chronoLast t resC3 = some r ∧ r.signal = true)) :=
  ⟨by decide, c3_report_per_instrument resC3 (by decide)⟩

/-- C7: for every result set, the alert lines of the report appear sorted
strictly increasing by instrument identifier, independently of the order of
instruments in the request list or the fetched batch. -/
theorem c7_report_sorted_by_ticker (res : List DevRow) :
    ((alertRows res).map DevRow.ticker).Pairwise (fun a b => a < b) := by
  have hsub : (alertRows res).Sublist (sortBy devLe res) :=
    (List.filter_sublist _).trans (lastPerTicker_sublist _)
  have hle : (alertRows res).Pairwise (fun a b => devLe a b = true) :=
    (pairwise_sortBy devLe devLe_total devLe_trans res).sublist hsub
  have hnd : ((alertRows res).map DevRow.ticker).Nodup :=
    (nodup_ticker_lastPerTicker (sortBy devLe res)).sublist
      ((List.filter_sublist _).map DevRow.ticker)
  unfold List.Nodup at hnd
  rw [List.pairwise_map] at hnd ⊢
  refine (hle.and hnd).imp ?_
  rintro a b ⟨h1, h2⟩
  simp only [devLe, Bool.or_eq_true, Bool.and_eq_true, decide_eq_true_eq] at h1
  rcases h1 with h1 | ⟨h1, _⟩
  · exact h1
  · exact absurd h1 h2

def batchC4 : Batch :=
  .single [{ date := 1, close := some 1 }, { date := 0, close := none }]

/-- C4 counterexample: on a batch listing a later date first and holding a
record with a missing close, the normalizer hands both records through
unchanged — its output is not sorted by date ascending and contains a row
with no close value, refuting both parts of the claim. -/
theorem c4_counterexample :
    fetch_prices ["A"] batchC4 =
      .ok [{ ticker := "A", date := 1, close := some 1 },
           { ticker := "A", date := 0, close := none }] := rfl

/-- C4 (amended): the Normalizer passes each requested instrument's batch rows
through unchanged (closes included, missing ones too, in batch order); it is
the Calculator that sorts the records by date ascending, keeping every record. -/
theorem c4_amended (t : String) (rs : List RawRow) (g : List PriceRow) :
    fetch_prices [t] (Batch.single rs) = .ok (tagRows t rs) ∧
    (tagRows t rs).map PriceRow.close = rs.map RawRow.close ∧
    (sortBy dateLe g).Pairwise (fun a b => a.date ≤ b.date) ∧
    (sortBy dateLe g).Perm g := by
  refine ⟨?_, ?_, ?_, sortBy_perm dateLe g⟩
  · simp [fetch_prices, fetchFrames, extractTicker]
  · simp [tagRows, List.map_map]
  · exact (pairwise_sortBy dateLe dateLe_total dateLe_trans g).imp
      (fun h => by simpa [dateLe] using h)

def gC6 : List PriceRow :=
  [{ ticker := "A", date := 5, close := some 10 },
   { ticker := "A", date := 5, close := some 20 }]

/-- C6 counterexample: a batch with two records for the same (instrument,
date) pair. Normalization keeps both; the calculator output for the
instrument carries the duplicate date twice, so dates are not strictly
increasing and no de-duplication happened. -/
theorem c6_counterexample :
    compute_sma25_signals gC6 =
      .ok [{ ticker := "A", date := 5, close := some 10, sma25 := none, kairi := none,
             signal := false },
           { ticker := "A", date := 5, close := some 20, sma25 := none, kairi := none,
             signal := false }] := rfl

/-- C6 (amended): normalization retains every record — duplicate dates
included, each input row of a group yielding exactly one output record — and
after the calculator's sort the dates are non-decreasing, but not strictly
increasing. -/
theorem c6_amended (g : List PriceRow) :
    ((devRowsOfGroup g).map DevRow.date).Pairwise (fun a b => a ≤ b) ∧
    (devRowsOfGroup g).length = g.length ∧
    ∀ d : Nat,
      ((devRowsOfGroup g).map DevRow.date).count d = (g.map PriceRow.date).count d := by
  have hdates : (devRowsOfGroup g).map DevRow.date = (sortBy dateLe g).map PriceRow.date :=
    map_date_devRowsAux _ _ 0
  refine ⟨?_, ?_, ?_⟩
  · rw [hdates, List.pairwise_map]
    exact (pairwise_sortBy dateLe dateLe_total dateLe_trans g).imp
      (fun h => by simpa [dateLe] using h)
  · calc (devRowsOfGroup g).length = (sortBy dateLe g).length := length_devRowsAux _ _ 0
      _ = g.length := (sortBy_perm dateLe g).length_eq
  · intro d
    rw [hdates]
    exact ((sortBy_perm dateLe g).map PriceRow.date).count_eq d

theorem dedup_const (t : String) (l : List String) (h : l ≠ [])
    (hall : ∀ x ∈ l, x = t) : l.dedup = [t] := by
  induction l with
  | nil => cases h rfl
  | cons x xs ih =>
    have hx : x = t := hall x (List.mem_cons_self x xs)
    by_cases hxs : xs = []
    · subst hxs
      rw [List.dedup_cons_of_not_mem (List.not_mem_nil x), List.dedup_nil, hx]
    · have hxs2 : ∀ y ∈ xs, y = t := fun y hy => hall y (List.mem_cons_of_mem x hy)
      have hmem : x ∈ xs := by
        cases xs with
        | nil => cases hxs rfl
        | cons z zs =>
          rw [hx, ← hxs2 z (List.mem_cons_self z zs)]
          exact List.mem_cons_self z zs
      rw [List.dedup_cons_of_mem hmem]
      exact ih hxs hxs2

theorem mem_alertRows_subset (res : List DevRow) (r : DevRow) (hr : r ∈ alertRows res) :
    r ∈ res := by
  have h1 : r ∈ sortBy devLe res :=
    ((List.filter_sublist _).trans (lastPerTicker_sublist _)).subset hr
  exact (sortBy_perm devLe res).mem_iff.mp h1

theorem ticker_of_mem_devRowsOfGroup (g : List PriceRow) (r : DevRow)
    (hr : r ∈ devRowsOfGroup g) : ∃ p ∈ g, r.ticker = p.ticker := by
  rcases mem_devRowsOfGroup g r hr with ⟨i, p, hp, _, rfl⟩
  exact ⟨p, (sortBy_perm dateLe g).mem_iff.mp (List.getElem?_mem hp), rfl⟩

def batchC5 : Batch := .keyed [("A", [{ date := 0, close := some 1 }])]

/-- C5 counterexample: requesting `[A, B]` against a keyed batch holding no
key for `B` makes the fetch step raise — the fallback path selects a close
column the keyed frame does not have — so no empty series is produced and the
run aborts, refuting the no-error claim. -/
theorem c5_counterexample : fetch_prices ["A", "B"] batchC5 = .error () := rfl

/-- C5 (amended): an instrument whose key is entirely absent from a keyed
batch aborts the fetch (see the counterexample); the non-fatal behaviour the
spec describes holds for an instrument whose key is present with zero rows:
the batch `[(A, rows), (B, [])]` fetches without error, every fetched row
belongs to `A`, the calculator yields records only for `A`, and `B` never
appears among the report's alert lines. -/
theorem c5_amended (rowsA : List RawRow) (hA : rowsA ≠ []) :
    ∃ rows res,
      fetch_prices ["A", "B"] (Batch.keyed [("A", rowsA), ("B", [])]) = .ok rows ∧
      rows = tagRows "A" rowsA ∧
      (∀ r ∈ rows, r.ticker = "A") ∧
      compute_sma25_signals rows = .ok res ∧
      (∀ r ∈ res, r.ticker = "A") ∧
      "B" ∉ (alertRows res).map DevRow.ticker := by
  have hticker : ∀ r ∈ tagRows "A" rowsA, PriceRow.ticker r = "A" := by
    intro r hr
    rcases List.mem_map.mp hr with ⟨p, _, hpr⟩
    rw [← hpr]
  have hne : tagRows "A" rowsA ≠ [] := by
    intro h
    exact hA (List.map_eq_nil_iff.mp h)
  have hcomp : compute_sma25_signals (tagRows "A" rowsA) =
      .ok (devRowsOfGroup (tagRows "A" rowsA)) := by
    unfold compute_sma25_signals
    rw [if_neg (by simpa [List.isEmpty_iff] using hne)]
    have hmapt : ∀ x ∈ (tagRows "A" rowsA).map PriceRow.ticker, x = "A" := by
      intro x hx
      rcases List.mem_map.mp hx with ⟨p, hp, hpx⟩
      rw [← hpx]
      exact hticker p hp
    have hmapne : (tagRows "A" rowsA).map PriceRow.ticker ≠ [] := by
      intro h
      exact hne (List.map_eq_nil_iff.mp h)
    have hdedup : ((tagRows "A" rowsA).map PriceRow.ticker).dedup = ["A"] :=
      dedup_const "A" _ hmapne hmapt
    unfold sortedTickers
    rw [hdedup]
    have hfil : (tagRows "A" rowsA).filter (fun r => decide (r.ticker = "A")) =
        tagRows "A" rowsA :=
      List.filter_eq_self.mpr (fun a ha => by simp [hticker a ha])
    simp [sortBy, insertBy, hfil]
  refine ⟨tagRows "A" rowsA, devRowsOfGroup (tagRows "A" rowsA), ?_, rfl, hticker, hcomp,
    ?_, ?_⟩
  · simp [fetch_prices, fetchFrames, extractTicker, lookupTicker, tagRows]
  · intro r hr
    rcases ticker_of_mem_devRowsOfGroup _ r hr with ⟨p, hp, hrp⟩
    rw [hrp]
    exact hticker p hp
  · intro hmem
    rcases List.mem_map.mp hmem with ⟨r, hr, hrt⟩
    have hrres := mem_alertRows_subset _ r hr
    rcases ticker_of_mem_devRowsOfGroup _ r hrres with ⟨p, hp, hrp⟩
    have hra : r.ticker = "A" := by
      rw [hrp]
      exact hticker p hp
    rw [hra] at hrt
    exact absurd hrt (by decide)

def rowsC5 : List RawRow := [{ date := 0, close := some 1 }]

/-- Witness for C5 (amended) at the one-row batch for `A` and the empty key
for `B`. -/
theorem c5_amended_witness :
    rowsC5 ≠ [] ∧
    (∃ rows res,
      fetch_prices ["A", "B"] (Batch.keyed [("A", rowsC5), ("B", [])]) = .ok rows ∧
      rows = tagRows "A" rowsC5 ∧
      (∀ r ∈ rows, r.ticker = "A") ∧
      compute_sma25_signals rows = .ok res ∧
      (∀ r ∈ res, r.ticker = "A") ∧
      "B" ∉ (alertRows res).map DevRow.ticker) :=
  ⟨by decide, c5_amended rowsC5 (by decide)⟩

/-- C9: the run exits with configuration status 2 exactly when the effective
ticker list is empty; the exit happens before fetching (the outcome is the
same for every batch), its status differs from success, and with a non-empty
list no configuration exit occurs. -/
theorem c9_config_abort (lines : List String) (data : Batch) (today : String) :
    (mainRun lines data today = .configExit 2 ↔ read_tickers lines = []) ∧
    (read_tickers lines = [] →
      ∀ (data2 : Batch) (today2 : String), mainRun lines data2 today2 = .configExit 2) ∧
    ((2 : Nat) ≠ 0) ∧
    (read_tickers lines ≠ [] → ∀ c : Nat, mainRun lines data today ≠ .configExit c) := by
  have hmain : ∀ (d : Batch) (td : String), read_tickers lines = [] →
      mainRun lines d td = .configExit 2 := by
    intro d td h
    unfold mainRun
    rw [h]
    rfl
  have hmain2 : read_tickers lines ≠ [] → ∀ c : Nat,
      mainRun lines data today ≠ .configExit c := by
    intro h c
    unfold mainRun
    rw [if_neg (by simpa [List.isEmpty_iff] using h)]
    cases hfetch : fetch_prices (read_tickers lines) data with
    | error e => simp
    | ok raw =>
      cases hcomp : compute_sma25_signals raw with
      | error e => simp [hcomp]
      | ok res => simp [hcomp]
  refine ⟨⟨?_, hmain data today⟩, fun h d td => hmain d td h, by omega, hmain2⟩
  intro h
  by_contra hne
  exact hmain2 hne 2 h

/-- Witness for C9: a comment-and-blank ticker file aborts with status 2; a
one-ticker file never reaches the configuration exit. -/
theorem c9_config_abort_witness :
    read_tickers ["# watchlist", "   "] = [] ∧
    mainRun ["# watchlist", "   "] (Batch.single []) "t" = .configExit 2 ∧
    read_tickers ["7203.T"] ≠ [] ∧
    (∀ c : Nat, mainRun ["7203.T"] (Batch.single []) "t" ≠ .configExit c) :=
  ⟨by decide,
   (c9_config_abort ["# watchlist", "   "] (Batch.single []) "t").2.1 (by decide)
     (Batch.single []) "t",
   by decide,
   (c9_config_abort ["7203.T"] (Batch.single []) "t").2.2.2 (by decide)⟩
